import Mathlib

/-!
Verification of the incremental build orchestration engine of the
`market_data` repository (`db_creation/build.py`, `db_creation/build_common.py`,
`db_creation/summary.py`), shallowly embedded in Lean 4.

The embedding models:
* the step registry (`build_common._steps`, the `step` decorator),
* the derived reverse-dependency graph (`get_dependency_graph`) and
  the breadth-first downstream closure (`get_downstream_targets`),
* the persisted manifest (`load_manifest` / `save_manifest`),
* the planner (`build.determine_steps_to_run`),
* the executor (`build.run_build`) and the CLI entry point (`build.main`),
* the stale-artifact cleanup (`cleanup_stale_artifacts`).

Python dicts are modelled as association lists with in-place overwrite,
Python sets as `Finset String`, step actions and the summary reporter as an
environment recording, per step id, whether the action succeeds, and whether
the summary call raises.
-/

namespace MarketData

/-- A registered build step: `(step_id, target, depends_on, func)` from
`build_common._steps`.  The action `func` is kept outside the structure; its
outcome is supplied by the execution environment. -/
structure Step where
  id : String
  target : String
  depends_on : List String
deriving DecidableEq, Repr

/-- A manifest entry: `{"completed_at": ..., "elapsed_seconds": ...}`.
Timestamps and durations are opaque values provided by the environment. -/
structure Entry where
  completed_at : Nat
  elapsed_seconds : Nat
deriving DecidableEq, Repr

/-- The manifest: a JSON object mapping step id to entry, modelled as an
association list with Python-dict insertion semantics. -/
abbrev Manifest := List (String × Entry)

/-- `step_id in manifest` (Python dict key membership). -/
def manifestHas (m : Manifest) (k : String) : Bool :=
  m.any (fun p => p.1 == k)

/-- `manifest[step_id] = entry` (Python dict assignment: overwrite in place
if the key is present, append otherwise). -/
def dictInsert (k : String) (v : Entry) : Manifest → Manifest
  | [] => [(k, v)]
  | p :: rest => if p.1 == k then (k, v) :: rest else p :: dictInsert k v rest

/-! ### Reverse-dependency graph (`build_common.get_dependency_graph`) -/

/-- The reverse-dependency mapping `target -> set of dependent targets`,
modelled as an association list of duplicate-free lists (a Python dict of
sets). -/
abbrev DepGraph := List (String × List String)

/-- `graph.get(t, [])`. -/
def graphLookup (g : DepGraph) (t : String) : List String :=
  match g with
  | [] => []
  | p :: rest => if p.1 = t then p.2 else graphLookup rest t

/-- `dependents.setdefault(dep, set()).add(target)` (set insertion: a member
already present is not added again). -/
def addEdge (g : DepGraph) (dep tgt : String) : DepGraph :=
  match g with
  | [] => [(dep, [tgt])]
  | p :: rest =>
    if p.1 = dep then (if tgt ∈ p.2 then p :: rest else (p.1, tgt :: p.2) :: rest)
    else p :: addEdge rest dep tgt

/-- `build_common.get_dependency_graph`: for every registered step and every
declared dependency, record the step's target as a dependent of that
dependency. -/
def get_dependency_graph (steps : List Step) : DepGraph :=
  steps.foldl (fun g s => s.depends_on.foldl (fun g2 d => addEdge g2 d s.target) g) []

/-- All targets named anywhere in the graph (keys and adjacency sets);
used as the termination measure of the breadth-first traversal. -/
def graphNodes (g : DepGraph) : Finset String :=
  g.foldr (fun p acc => insert p.1 (p.2.toFinset ∪ acc)) ∅

lemma graphLookup_subset_nodes (g : DepGraph) (t : String) :
    (graphLookup g t).toFinset ⊆ graphNodes g := by
  induction g with
  | nil => simp [graphLookup, graphNodes]
  | cons p rest ih =>
    show (graphLookup (p :: rest) t).toFinset ⊆ insert p.1 (p.2.toFinset ∪ graphNodes rest)
    rw [graphLookup]
    split
    · intro x hx
      exact Finset.mem_insert_of_mem (Finset.mem_union_left _ hx)
    · intro x hx
      exact Finset.mem_insert_of_mem (Finset.mem_union_right _ (ih hx))

/-- The visited-set breadth-first traversal of `get_downstream_targets`:
pop the head of the queue, skip it if already visited, otherwise mark it
visited and append its dependents to the queue. -/
def bfsAux (g : DepGraph) (queue : List String) (visited : Finset String) :
    Finset String :=
  match queue with
  | [] => visited
  | t :: rest =>
    if t ∈ visited then bfsAux g rest visited
    else bfsAux g (rest ++ graphLookup g t) (insert t visited)
  termination_by (((graphNodes g ∪ queue.toFinset) \ visited).card, queue.length)
  decreasing_by
  · have hsub : (graphNodes g ∪ rest.toFinset) \ visited ⊆
        (graphNodes g ∪ (t :: rest).toFinset) \ visited := by
      intro x hx
      rw [Finset.mem_sdiff] at hx ⊢
      refine ⟨?_, hx.2⟩
      rcases Finset.mem_union.mp hx.1 with h | h
      · exact Finset.mem_union_left _ h
      · refine Finset.mem_union_right _ ?_
        simp only [List.toFinset_cons, Finset.mem_insert]
        exact Or.inr (by simpa using h)
    rcases lt_or_eq_of_le (Finset.card_le_card hsub) with hlt | heq
    · exact Prod.Lex.left _ _ hlt
    · rw [heq]
      exact Prod.Lex.right _ (by simp)
  · have htmem : t ∈ (graphNodes g ∪ (t :: rest).toFinset) \ visited := by
      rw [Finset.mem_sdiff]
      exact ⟨Finset.mem_union_right _ (by simp), by assumption⟩
    have hsub : (graphNodes g ∪ (rest ++ graphLookup g t).toFinset) \
        insert t visited ⊆ (graphNodes g ∪ (t :: rest).toFinset) \ visited := by
      intro x hx
      rw [Finset.mem_sdiff] at hx ⊢
      refine ⟨?_, fun hv => hx.2 (Finset.mem_insert_of_mem hv)⟩
      rcases Finset.mem_union.mp hx.1 with h | h
      · exact Finset.mem_union_left _ h
      · rw [List.toFinset_append, Finset.mem_union] at h
        rcases h with h | h
        · refine Finset.mem_union_right _ ?_
          simp only [List.toFinset_cons, Finset.mem_insert]
          exact Or.inr h
        · refine Finset.mem_union_left _ ?_
          exact graphLookup_subset_nodes g t (by simpa using h)
    have hnot : t ∉ (graphNodes g ∪ (rest ++ graphLookup g t).toFinset) \
        insert t visited := by
      rw [Finset.mem_sdiff]
      intro hc
      exact hc.2 (Finset.mem_insert_self _ _)
    refine Prod.Lex.left _ _ (Finset.card_lt_card ?_)
    exact ⟨hsub, fun hc => hnot (hc htmem)⟩

/-- `build_common.get_downstream_targets`: breadth-first closure from
`target` over the reverse-dependency graph of the registry, with the target
itself discarded at the end. -/
def get_downstream_targets (steps : List Step) (target : String) : Finset String :=
  (bfsAux (get_dependency_graph steps) [target] ∅).erase target

/-- One reverse-dependency edge of the graph: `b` is a recorded dependent
of `a`. -/
def edgeRel (g : DepGraph) (a b : String) : Prop :=
  b ∈ graphLookup g a

lemma bfsAux_sound (g : DepGraph) (queue : List String) (visited : Finset String) :
    ∀ x ∈ bfsAux g queue visited,
      x ∈ visited ∨ ∃ s ∈ queue, Relation.ReflTransGen (edgeRel g) s x := by
  induction queue, visited using bfsAux.induct g with
  | case1 visited =>
    intro x hx
    rw [bfsAux] at hx
    exact Or.inl hx
  | case2 visited t rest hmem ih =>
    intro x hx
    rw [bfsAux, if_pos hmem] at hx
    rcases ih x hx with h | ⟨s, hs, hpath⟩
    · exact Or.inl h
    · exact Or.inr ⟨s, List.mem_cons_of_mem _ hs, hpath⟩
  | case3 visited t rest hmem ih =>
    intro x hx
    rw [bfsAux, if_neg hmem] at hx
    rcases ih x hx with h | ⟨s, hs, hpath⟩
    · rcases Finset.mem_insert.mp h with h | h
      · exact Or.inr ⟨t, List.mem_cons_self _ _, h ▸ Relation.ReflTransGen.refl⟩
      · exact Or.inl h
    · rcases List.mem_append.mp hs with h | h
      · exact Or.inr ⟨s, List.mem_cons_of_mem _ h, hpath⟩
      · exact Or.inr ⟨t, List.mem_cons_self _ _,
          Relation.ReflTransGen.head (show edgeRel g t s from h) hpath⟩

lemma bfsAux_complete (g : DepGraph) (queue : List String) (visited : Finset String)
    (hclosed : ∀ u ∈ visited, ∀ w ∈ graphLookup g u, w ∈ visited ∨ w ∈ queue) :
    ∀ s, (s ∈ queue ∨ s ∈ visited) →
      ∀ x, Relation.ReflTransGen (edgeRel g) s x → x ∈ bfsAux g queue visited := by
  induction queue, visited using bfsAux.induct g with
  | case1 visited =>
    intro s hs x hpath
    rw [bfsAux]
    rcases hs with hs | hs
    · exact absurd hs (List.not_mem_nil s)
    · induction hpath with
      | refl => exact hs
      | tail _ hedge ih2 =>
        rcases hclosed _ ih2 _ hedge with h | h
        · exact h
        · exact absurd h (List.not_mem_nil _)
  | case2 visited t rest hmem ih =>
    intro s hs x hpath
    rw [bfsAux, if_pos hmem]
    have hclosed2 : ∀ u ∈ visited, ∀ w ∈ graphLookup g u, w ∈ visited ∨ w ∈ rest := by
      intro u hu w hw
      rcases hclosed u hu w hw with h | h
      · exact Or.inl h
      · rcases List.mem_cons.mp h with h | h
        · exact Or.inl (h ▸ hmem)
        · exact Or.inr h
    have hs2 : s ∈ rest ∨ s ∈ visited := by
      rcases hs with hs | hs
      · rcases List.mem_cons.mp hs with h | h
        · exact Or.inr (h ▸ hmem)
        · exact Or.inl h
      · exact Or.inr hs
    exact ih hclosed2 s hs2 x hpath
  | case3 visited t rest hmem ih =>
    intro s hs x hpath
    rw [bfsAux, if_neg hmem]
    have hclosed2 : ∀ u ∈ insert t visited, ∀ w ∈ graphLookup g u,
        w ∈ insert t visited ∨ w ∈ rest ++ graphLookup g t := by
      intro u hu w hw
      rcases Finset.mem_insert.mp hu with h | h
      · exact Or.inr (List.mem_append_right _ (h ▸ hw))
      · rcases hclosed u h w hw with h2 | h2
        · exact Or.inl (Finset.mem_insert_of_mem h2)
        · rcases List.mem_cons.mp h2 with h2 | h2
          · exact Or.inl (h2 ▸ Finset.mem_insert_self _ _)
          · exact Or.inr (List.mem_append_left _ h2)
    have hs2 : s ∈ rest ++ graphLookup g t ∨ s ∈ insert t visited := by
      rcases hs with hs | hs
      · rcases List.mem_cons.mp hs with h | h
        · exact Or.inr (h ▸ Finset.mem_insert_self _ _)
        · exact Or.inl (List.mem_append_left _ h)
      · exact Or.inr (Finset.mem_insert_of_mem hs)
    exact ih hclosed2 s hs2 x hpath

/-- Characterization of the breadth-first traversal started from a single
node with an empty visited set: it computes exactly the reflexive-transitive
closure of the edge relation. -/
lemma bfsAux_start (g : DepGraph) (t x : String) :
    x ∈ bfsAux g [t] ∅ ↔ Relation.ReflTransGen (edgeRel g) t x := by
  constructor
  · intro hx
    rcases bfsAux_sound g [t] ∅ x hx with h | ⟨s, hs, hpath⟩
    · exact absurd h (Finset.not_mem_empty x)
    · rcases List.mem_cons.mp hs with h | h
      · exact h ▸ hpath
      · exact absurd h (List.not_mem_nil s)
  · intro hpath
    refine bfsAux_complete g [t] ∅ ?_ t (Or.inl (List.mem_cons_self _ _)) x hpath
    intro u hu
    exact absurd hu (Finset.not_mem_empty u)

lemma mem_graphLookup_addEdge (g : DepGraph) (dep tgt x y : String) :
    y ∈ graphLookup (addEdge g dep tgt) x ↔
      (x = dep ∧ y = tgt) ∨ y ∈ graphLookup g x := by
  induction g with
  | nil =>
    by_cases hx : x = dep <;> simp_all [addEdge, graphLookup, eq_comm]
  | cons p rest ih =>
    obtain ⟨k, vs⟩ := p
    by_cases hp : k = dep <;> by_cases htgt : tgt ∈ vs <;> by_cases hx : k = x <;>
      simp_all [addEdge, graphLookup] <;> aesop

lemma mem_graphLookup_foldl_deps (deps : List String) (tgt : String) (g : DepGraph)
    (x y : String) :
    y ∈ graphLookup (deps.foldl (fun g2 d => addEdge g2 d tgt) g) x ↔
      (x ∈ deps ∧ y = tgt) ∨ y ∈ graphLookup g x := by
  induction deps generalizing g with
  | nil => simp
  | cons d ds ih =>
    rw [List.foldl_cons, ih, mem_graphLookup_addEdge]
    constructor
    · rintro (⟨h1, h2⟩ | (⟨h1, h2⟩ | h))
      · exact Or.inl ⟨List.mem_cons_of_mem _ h1, h2⟩
      · exact Or.inl ⟨h1 ▸ List.mem_cons_self _ _, h2⟩
      · exact Or.inr h
    · rintro (⟨h1, h2⟩ | h)
      · rcases List.mem_cons.mp h1 with h1 | h1
        · exact Or.inr (Or.inl ⟨h1, h2⟩)
        · exact Or.inl ⟨h1, h2⟩
      · exact Or.inr (Or.inr h)

lemma mem_graphLookup_foldl_steps (steps : List Step) (g : DepGraph) (x y : String) :
    y ∈ graphLookup
      (steps.foldl (fun g2 s => s.depends_on.foldl (fun g3 d => addEdge g3 d s.target) g2) g) x ↔
      (∃ s ∈ steps, s.target = y ∧ x ∈ s.depends_on) ∨ y ∈ graphLookup g x := by
  induction steps generalizing g with
  | nil => simp
  | cons s ss ih =>
    rw [List.foldl_cons, ih, mem_graphLookup_foldl_deps]
    constructor
    · rintro (⟨s2, hs2, h1, h2⟩ | (⟨h1, h2⟩ | h))
      · exact Or.inl ⟨s2, List.mem_cons_of_mem _ hs2, h1, h2⟩
      · exact Or.inl ⟨s, List.mem_cons_self _ _, h2.symm, h1⟩
      · exact Or.inr h
    · rintro (⟨s2, hs2, h1, h2⟩ | h)
      · rcases List.mem_cons.mp hs2 with hs2 | hs2
        · exact Or.inr (Or.inl ⟨hs2 ▸ h2, hs2 ▸ h1.symm⟩)
        · exact Or.inl ⟨s2, hs2, h1, h2⟩
      · exact Or.inr (Or.inr h)

/-- `base`'s artifact is read directly by a registered step producing
`dependent`: the direct "depends on" relation of the registry. -/
def directlyDependsOn (steps : List Step) (base dependent : String) : Prop :=
  ∃ s ∈ steps, s.target = dependent ∧ base ∈ s.depends_on

lemma edgeRel_dependency_graph (steps : List Step) (x y : String) :
    edgeRel (get_dependency_graph steps) x y ↔ directlyDependsOn steps x y := by
  rw [edgeRel, get_dependency_graph, directlyDependsOn,
    mem_graphLookup_foldl_steps]
  simp [graphLookup]

/-- C3: for every registry and every target `t`, `get_downstream_targets`
returns exactly the set of targets that depend on `t` directly or
transitively, excluding `t` itself.  The result is a `Finset`, so in a
diamond dependency each downstream target appears exactly once; and the
underlying visited-set breadth-first traversal is a total Lean function,
so the computation terminates on every finite graph, cyclic ones included. -/
theorem get_downstream_targets_spec (steps : List Step) (t x : String) :
    x ∈ get_downstream_targets steps t ↔
      Relation.TransGen (directlyDependsOn steps) t x ∧ x ≠ t := by
  rw [get_downstream_targets, Finset.mem_erase, bfsAux_start]
  constructor
  · rintro ⟨hne, hpath⟩
    refine ⟨?_, hne⟩
    rcases Relation.reflTransGen_iff_eq_or_transGen.mp hpath with h | h
    · exact absurd h hne
    · exact h.mono (fun a b hab => (edgeRel_dependency_graph steps a b).mp hab)
  · rintro ⟨hpath, hne⟩
    exact ⟨hne,
      (hpath.mono (fun a b hab =>
        (edgeRel_dependency_graph steps a b).mpr hab)).to_reflTransGen⟩

/-! ### Planner (`build.determine_steps_to_run`) -/

/-- The `force_targets` accumulation of `determine_steps_to_run`: for each
requested target, add the target itself and all its transitive downstream
targets. -/
def forceTargets (steps : List Step) (requested : List String) : Finset String :=
  requested.foldl (fun acc t => insert t acc ∪ get_downstream_targets steps t) ∅

/-- The three-way `should_run` test of `determine_steps_to_run`: new step
(id absent from the manifest), explicitly forced target, or a declared
dependency target already rebuilt earlier in this run. -/
def shouldRunStep (manifest : Manifest) (force rebuilt : Finset String) (s : Step) :
    Bool :=
  !manifestHas manifest s.id || decide (s.target ∈ force) ||
    s.depends_on.any (fun d => decide (d ∈ rebuilt))

/-- The single ordered pass of `determine_steps_to_run` over the registry,
carrying the `rebuilt_this_run` working set. -/
def planWalk (manifest : Manifest) (force : Finset String) :
    List Step → Finset String → List Step
  | [], _ => []
  | s :: rest, rebuilt =>
    if shouldRunStep manifest force rebuilt s
    then s :: planWalk manifest force rest (insert s.target rebuilt)
    else planWalk manifest force rest rebuilt

/-- `build.determine_steps_to_run`. -/
def determine_steps_to_run (steps : List Step) (manifest : Manifest)
    (requested : List String) (full_rebuild : Bool) : List Step :=
  if full_rebuild then steps
  else planWalk manifest (forceTargets steps requested) steps ∅

/-- Spec-side wording of membership in `force_targets`: the target was
requested, or is a transitive downstream target of a requested one. -/
def specForce (steps : List Step) (requested : List String) (tgt : String) : Prop :=
  tgt ∈ requested ∨ ∃ r ∈ requested, tgt ∈ get_downstream_targets steps r

instance (steps : List Step) (requested : List String) (tgt : String) :
    Decidable (specForce steps requested tgt) := by
  unfold specForce
  infer_instance

/-- Spec-side wording of the planner's selection: step `i` is selected iff
(a) its id is absent from the manifest, (b) its target was requested or is
downstream of a requested target, or (c) the target of some earlier step
already selected in this same pass is among its declared dependencies. -/
def specSelected (steps : List Step) (manifest : Manifest) (requested : List String)
    (i : Nat) : Bool :=
  match steps.get? i with
  | none => false
  | some s =>
    !manifestHas manifest s.id || decide (specForce steps requested s.target) ||
      (List.range i).attach.any (fun j =>
        specSelected steps manifest requested j.1 &&
          (steps.get? j.1).any (fun sj => decide (sj.target ∈ s.depends_on)))
  termination_by i
  decreasing_by
    exact List.mem_range.mp j.2

/-- Spec-side wording of the returned plan: the selected steps, in
registration order, starting from position `k`. -/
def specPlanFrom (steps : List Step) (manifest : Manifest) (requested : List String)
    (k : Nat) : List Step :=
  if h : k < steps.length then
    (if specSelected steps manifest requested k then [steps.get ⟨k, h⟩] else []) ++
      specPlanFrom steps manifest requested (k + 1)
  else []
  termination_by steps.length - k

lemma mem_forceTargets_aux (steps : List Step) (l : List String) (acc : Finset String)
    (tgt : String) :
    tgt ∈ l.foldl (fun acc2 t => insert t acc2 ∪ get_downstream_targets steps t) acc ↔
      tgt ∈ acc ∨ tgt ∈ l ∨ ∃ r ∈ l, tgt ∈ get_downstream_targets steps r := by
  induction l generalizing acc with
  | nil => simp
  | cons a as ih =>
    rw [List.foldl_cons, ih]
    simp only [Finset.mem_union, Finset.mem_insert, List.mem_cons]
    aesop

lemma mem_forceTargets (steps : List Step) (requested : List String) (tgt : String) :
    tgt ∈ forceTargets steps requested ↔ specForce steps requested tgt := by
  rw [forceTargets, mem_forceTargets_aux, specForce]
  simp

lemma shouldRunStep_eq_specSelected (steps : List Step) (manifest : Manifest)
    (requested : List String) (k : Nat) (hk : k < steps.length)
    (rebuilt : Finset String)
    (hreb : ∀ x, x ∈ rebuilt ↔ ∃ j, j < k ∧
      specSelected steps manifest requested j = true ∧
      ∃ sj, steps.get? j = some sj ∧ sj.target = x) :
    shouldRunStep manifest (forceTargets steps requested) rebuilt (steps.get ⟨k, hk⟩) =
      specSelected steps manifest requested k := by
  have hget : steps.get? k = some (steps.get ⟨k, hk⟩) := List.get?_eq_get hk
  rw [Bool.eq_iff_iff, shouldRunStep]
  conv_rhs => rw [specSelected]
  rw [hget]
  simp only [Bool.or_eq_true, Bool.not_eq_true', List.any_eq_true,
    decide_eq_true_eq, List.mem_attach, true_and, Bool.and_eq_true]
  constructor
  · rintro ((h | h) | ⟨d, hd, hdr⟩)
    · exact Or.inl (Or.inl h)
    · exact Or.inl (Or.inr ((mem_forceTargets steps requested _).mp h))
    · rcases (hreb d).mp hdr with ⟨j, hj, hsel, sj, hsj, htgt⟩
      refine Or.inr ⟨⟨j, List.mem_range.mpr hj⟩, hsel, ?_⟩
      show ((steps.get? j).any _) = true
      rw [hsj, Option.any_some, decide_eq_true_eq]
      exact htgt ▸ hd
  · rintro ((h | h) | ⟨⟨j, hj⟩, hsel, hany⟩)
    · exact Or.inl (Or.inl h)
    · exact Or.inl (Or.inr ((mem_forceTargets steps requested _).mpr h))
    · have hany2 : ((steps.get? j).any
          (fun sj => decide (sj.target ∈ (steps.get ⟨k, hk⟩).depends_on))) = true := hany
      rcases ho : steps.get? j with _ | sj
      · rw [ho, Option.any_none] at hany2
        exact absurd hany2 (by simp)
      · rw [ho, Option.any_some, decide_eq_true_eq] at hany2
        refine Or.inr ⟨sj.target, hany2, ?_⟩
        exact (hreb sj.target).mpr ⟨j, List.mem_range.mp hj, hsel, sj, ho, rfl⟩

lemma planWalk_drop_spec (steps : List Step) (manifest : Manifest)
    (requested : List String) :
    ∀ (k : Nat) (rebuilt : Finset String),
      (∀ x, x ∈ rebuilt ↔ ∃ j, j < k ∧
        specSelected steps manifest requested j = true ∧
        ∃ sj, steps.get? j = some sj ∧ sj.target = x) →
      planWalk manifest (forceTargets steps requested) (steps.drop k) rebuilt =
        specPlanFrom steps manifest requested k := by
  intro k
  induction k using specPlanFrom.induct steps manifest requested with
  | case1 k hk ih =>
    intro rebuilt hreb
    have hget : steps.get? k = some (steps.get ⟨k, hk⟩) := List.get?_eq_get hk
    have hdrop : steps.drop k = steps.get ⟨k, hk⟩ :: steps.drop (k + 1) := by
      rw [List.drop_eq_getElem_cons hk]
      rfl
    rw [hdrop, planWalk, shouldRunStep_eq_specSelected steps manifest requested k hk rebuilt hreb,
      specPlanFrom, dif_pos hk]
    by_cases hsel : specSelected steps manifest requested k = true
    · rw [if_pos hsel, if_pos hsel]
      have ih2 := ih (insert (steps.get ⟨k, hk⟩).target rebuilt) ?_
      · rw [ih2]
        rfl
      · intro x
        rw [Finset.mem_insert, hreb x]
        constructor
        · rintro (h | ⟨j, hj, hs, sj, hsj, htgt⟩)
          · exact ⟨k, Nat.lt_succ_self k, hsel, steps.get ⟨k, hk⟩, hget, h.symm⟩
          · exact ⟨j, Nat.lt_succ_of_lt hj, hs, sj, hsj, htgt⟩
        · rintro ⟨j, hj, hs, sj, hsj, htgt⟩
          rcases Nat.lt_succ_iff_lt_or_eq.mp hj with hj | rfl
          · exact Or.inr ⟨j, hj, hs, sj, hsj, htgt⟩
          · rw [hget] at hsj
            cases hsj
            exact Or.inl htgt.symm
    · rw [if_neg hsel, if_neg hsel]
      refine ih rebuilt ?_
      intro x
      rw [hreb x]
      constructor
      · rintro ⟨j, hj, hs, rest⟩
        exact ⟨j, Nat.lt_succ_of_lt hj, hs, rest⟩
      · rintro ⟨j, hj, hs, rest⟩
        rcases Nat.lt_succ_iff_lt_or_eq.mp hj with hj | rfl
        · exact ⟨j, hj, hs, rest⟩
        · exact absurd hs hsel
  | case2 k hk =>
    intro rebuilt _
    rw [List.drop_eq_nil_of_le (Nat.le_of_not_lt hk), planWalk,
      specPlanFrom, dif_neg hk]

/-- C1: with `full_rebuild` the planner returns every registered step in
registration order; without it, it returns, in registration order, exactly
the steps selected by the spec's three conditions — id absent from the
manifest, target requested or transitively downstream of a requested target,
or a declared dependency equal to the target of an earlier step selected in
the same pass. -/
theorem determine_steps_to_run_spec (steps : List Step) (manifest : Manifest)
    (requested : List String) :
    determine_steps_to_run steps manifest requested true = steps ∧
    determine_steps_to_run steps manifest requested false =
      specPlanFrom steps manifest requested 0 := by
  constructor
  · rw [determine_steps_to_run, if_pos rfl]
  · rw [determine_steps_to_run, if_neg (by simp)]
    have h := planWalk_drop_spec steps manifest requested 0 ∅ ?_
    · rw [List.drop_zero] at h
      exact h
    · intro x
      simp

/-! ### Manifest store (`build_common.load_manifest` / `save_manifest`) -/

/-- The contents of the manifest file: `none` when no manifest document
exists on disk. -/
abbrev ManifestFile := Option Manifest

/-- `build_common.load_manifest`: the persisted document, or the empty
mapping when none exists. -/
def load_manifest (f : ManifestFile) : Manifest :=
  match f with
  | none => []
  | some m => m

/-- A store of JSON documents keyed by filesystem path (the `db/` directory
as the manifest writer sees it). -/
abbrev DocStore := List (String × Manifest)

def docLookup (ds : DocStore) (p : String) : Option Manifest :=
  match ds with
  | [] => none
  | q :: rest => if q.1 == p then some q.2 else docLookup rest p

def docWrite (ds : DocStore) (p : String) (m : Manifest) : DocStore :=
  match ds with
  | [] => [(p, m)]
  | q :: rest => if q.1 == p then (p, m) :: rest else q :: docWrite rest p m

def docRemove (ds : DocStore) (p : String) : DocStore :=
  match ds with
  | [] => []
  | q :: rest => if q.1 == p then rest else q :: docRemove rest p

/-- One atomic filesystem mutation performed by `save_manifest`. -/
inductive FsOp where
  | mkdirOutput
  | writeFile (path : String) (doc : Manifest)
  | rename (src dst : String)
deriving DecidableEq, Repr

def applyOp (ds : DocStore) : FsOp → DocStore
  | .mkdirOutput => ds
  | .writeFile p m => docWrite ds p m
  | .rename src dst =>
    match docLookup ds src with
    | none => ds
    | some m => docWrite (docRemove ds src) dst m

def applyOps (ds : DocStore) (ops : List FsOp) : DocStore :=
  ops.foldl applyOp ds

/-- `build_common.MANIFEST_FILE = OUTPUT_DIR / ".build_manifest.json"`. -/
def MANIFEST_FILE : String := "db/.build_manifest.json"

/-- The temporary path `str(MANIFEST_FILE) + ".tmp"` used by `save_manifest`. -/
def MANIFEST_TMP : String := "db/.build_manifest.json.tmp"

/-- `build_common.save_manifest` as its ordered trace of filesystem
mutations: ensure the output directory exists, serialize the whole document
to the temporary path, then rename the temporary path over the final path. -/
def save_manifest_ops (m : Manifest) : List FsOp :=
  [.mkdirOutput, .writeFile MANIFEST_TMP m, .rename MANIFEST_TMP MANIFEST_FILE]

/-- `build_common.load_manifest` against the document store: the document at
the manifest path, or the empty mapping when the file does not exist. -/
def load_manifest_doc (ds : DocStore) : Manifest :=
  match docLookup ds MANIFEST_FILE with
  | none => []
  | some m => m

/-! ### Stale-artifact cleanup (`build_common.cleanup_stale_artifacts`) -/

/-- The staleness test of `cleanup_stale_artifacts`: names ending in
`.tmp`, `_old` or `_building`, or starting with `_`. -/
def isStaleArtifact (name : String) : Bool :=
  name.endsWith ".tmp" || name.endsWith "_old" || name.endsWith "_building" ||
    name.startsWith "_"

/-- `cleanup_stale_artifacts`: delete every stale top-level entry of the
output directory. -/
def cleanup_stale_artifacts (names : List String) : List String :=
  names.filter (fun n => !isStaleArtifact n)

/-! ### Executor (`build.run_build`) and CLI (`build.main`) -/

/-- How a call to `run_build` ends: `True` returned, `False` returned, or an
uncaught exception propagating out of it. -/
inductive BuildResult where
  | success
  | failure
  | exn
deriving DecidableEq, Repr

/-- The execution environment: whether each step's action succeeds when
invoked, which manifest entry (timestamp, duration) a successful step
records, and whether the external summary reporter raises. -/
structure Env where
  stepOk : String → Bool
  entry : String → Entry
  summaryOk : Bool

/-- The mutable state `run_build` starts from: the top-level entries of the
output directory, and the persisted manifest file. -/
structure BuildState where
  artifacts : List String
  persisted : ManifestFile

/-- What a `run_build` call did: its result, the final manifest file, the
output-directory entries after cleanup, the ids of the steps whose actions
were invoked, whether `run_summary` was invoked, and the successive
manifests passed to `save_manifest`, in order. -/
structure RunOutcome where
  result : BuildResult
  persisted : ManifestFile
  artifacts : List String
  executed : List String
  summaryRan : Bool
  saves : List Manifest
deriving Repr

/-- The result of the executor loop over the planned steps. -/
structure ExecResult where
  ok : Bool
  manifest : Manifest
  executed : List String
  saves : List Manifest
deriving DecidableEq, Repr

/-- The `for step_id, target, func in steps_to_run` loop of `run_build`:
invoke each action in order; on success record the manifest entry and save
the manifest, on the first failure return `False` at once. -/
def execSteps (stepOk : String → Bool) (entry : String → Entry) :
    List Step → Manifest → ExecResult
  | [], m => ⟨true, m, [], []⟩
  | s :: rest, m =>
    if stepOk s.id then
      let m2 := dictInsert s.id (entry s.id) m
      let r := execSteps stepOk entry rest m2
      ⟨r.ok, r.manifest, s.id :: r.executed, m2 :: r.saves⟩
    else ⟨false, m, [s.id], []⟩

/-- The manifest file at the end of the run: the last manifest saved, or the
initial file if no save happened. -/
def lastSave (saves : List Manifest) (initial : ManifestFile) : ManifestFile :=
  match saves.getLast? with
  | none => initial
  | some m => some m

/-- `build.run_build`: clean stale artifacts, load the manifest (an empty
one under `--full`), plan, then either report "nothing to do" (invoking the
summary), print the dry-run listing, or execute the planned steps in order,
saving the manifest after each success and aborting on the first failure;
after full success invoke the summary.  An exception raised by
`run_summary` is not caught and propagates out of `run_build`. -/
def run_build (steps : List Step) (env : Env) (st : BuildState)
    (requested : List String) (full_rebuild dry_run : Bool) : RunOutcome :=
  let artifacts := cleanup_stale_artifacts st.artifacts
  let manifest := if full_rebuild then [] else load_manifest st.persisted
  let plan := determine_steps_to_run steps manifest requested full_rebuild
  if plan.isEmpty then
    { result := if env.summaryOk then .success else .exn
      persisted := st.persisted, artifacts := artifacts
      executed := [], summaryRan := true, saves := [] }
  else if dry_run then
    { result := .success, persisted := st.persisted, artifacts := artifacts
      executed := [], summaryRan := false, saves := [] }
  else
    let r := execSteps env.stepOk env.entry plan manifest
    if r.ok then
      { result := if env.summaryOk then .success else .exn
        persisted := lastSave r.saves st.persisted, artifacts := artifacts
        executed := r.executed, summaryRan := true, saves := r.saves }
    else
      { result := .failure
        persisted := lastSave r.saves st.persisted, artifacts := artifacts
        executed := r.executed, summaryRan := false, saves := r.saves }

/-- The parsed command line of `build.main`. -/
structure Args where
  targets : List String
  full : Bool
  list_steps : Bool
  dry_run : Bool

/-- `known_targets = {tgt for _, tgt, _, _ in _steps}`. -/
def knownTargets (steps : List Step) : List String :=
  steps.map Step.target

/-- The process exit status of `build.main`: `--list` exits 0; a target
unknown to the registry exits via `sys.exit(message)`, which is status 1;
otherwise `run_build` runs, a `False` result exits via `sys.exit(1)`, an
uncaught exception terminates the process with status 1, and a `True`
result exits 0. -/
def mainExitCode (steps : List Step) (env : Env) (st : BuildState) (args : Args) :
    Nat :=
  if args.list_steps then 0
  else if args.targets.any (fun t => !(knownTargets steps).contains t) then 1
  else
    match (run_build steps env st args.targets args.full args.dry_run).result with
    | .success => 0
    | .failure => 1
    | .exn => 1

/-! ### Step registry (`build_common.step` decorator) -/

/-- The module-level registry state: `_steps` and `_target_to_steps`. -/
structure Registry where
  steps : List Step
  target_to_steps : List (String × List String)
deriving DecidableEq, Repr

def emptyRegistry : Registry := ⟨[], []⟩

/-- `_target_to_steps.setdefault(target, []).append(step_id)`. -/
def ttsAdd (tts : List (String × List String)) (target id : String) :
    List (String × List String) :=
  match tts with
  | [] => [(target, [id])]
  | p :: rest =>
    if p.1 == target then (p.1, p.2 ++ [id]) :: rest else p :: ttsAdd rest target id

/-- The `step` decorator of `build_common`: unconditionally append the step
to `_steps` and its id to `_target_to_steps[target]`. -/
def registerStep (r : Registry) (s : Step) : Registry :=
  ⟨r.steps ++ [s], ttsAdd r.target_to_steps s.target s.id⟩

/-! ### Executor bookkeeping -/

/-- The manifest after recording entries for the given steps, in order. -/
def insertEntries (entry : String → Entry) : List Step → Manifest → Manifest
  | [], m => m
  | s :: rest, m => insertEntries entry rest (dictInsert s.id (entry s.id) m)

/-- The successive manifests saved while executing the given steps. -/
def savesFor (entry : String → Entry) : List Step → Manifest → List Manifest
  | [], _ => []
  | s :: rest, m =>
    dictInsert s.id (entry s.id) m :: savesFor entry rest (dictInsert s.id (entry s.id) m)

lemma manifestHas_dictInsert (m : Manifest) (k x : String) (v : Entry) :
    manifestHas (dictInsert k v m) x = true ↔ x = k ∨ manifestHas m x = true := by
  induction m with
  | nil =>
    constructor
    · intro h
      left
      have h2 : (k == x) = true := by
        simp only [dictInsert, manifestHas, List.any_cons, List.any_nil,
          Bool.or_false] at h
        exact h
      exact (by simpa using h2 : k = x).symm
    · rintro (rfl | h)
      · simp [dictInsert, manifestHas]
      · rw [manifestHas, List.any_nil] at h
        exact absurd h (by simp)
  | cons p rest ih =>
    rw [dictInsert]
    by_cases hp : (p.1 == k) = true
    · rw [if_pos hp]
      have hpk : p.1 = k := by simpa using hp
      simp only [manifestHas, List.any_cons, Bool.or_eq_true, beq_iff_eq, hpk]
      aesop
    · rw [if_neg hp]
      simp only [manifestHas, List.any_cons, Bool.or_eq_true, beq_iff_eq] at ih ⊢
      rw [ih]
      tauto

lemma manifestHas_insertEntries (entry : String → Entry) :
    ∀ (l : List Step) (m : Manifest) (x : String),
      manifestHas (insertEntries entry l m) x = true ↔
        manifestHas m x = true ∨ ∃ s ∈ l, s.id = x := by
  intro l
  induction l with
  | nil => simp [insertEntries]
  | cons s rest ih =>
    intro m x
    rw [insertEntries, ih, manifestHas_dictInsert]
    constructor
    · rintro ((h | h) | h)
      · exact Or.inr ⟨s, List.mem_cons_self _ _, h.symm⟩
      · exact Or.inl h
      · rcases h with ⟨s2, hs2, h2⟩
        exact Or.inr ⟨s2, List.mem_cons_of_mem _ hs2, h2⟩
    · rintro (h | ⟨s2, hs2, h2⟩)
      · exact Or.inl (Or.inr h)
      · rcases List.mem_cons.mp hs2 with rfl | hs2
        · exact Or.inl (Or.inl h2.symm)
        · exact Or.inr ⟨s2, hs2, h2⟩

lemma dictInsert_not_has (m : Manifest) (k : String) (v : Entry)
    (h : manifestHas m k = false) : dictInsert k v m = m ++ [(k, v)] := by
  induction m with
  | nil => rfl
  | cons p rest ih =>
    rw [manifestHas, List.any_cons, Bool.or_eq_false_iff] at h
    rw [dictInsert, if_neg (by simp [h.1]), ih h.2]
    rfl

lemma insertEntries_nodup (entry : String → Entry) :
    ∀ (l : List Step) (m : Manifest),
      (l.map Step.id).Nodup → (∀ s ∈ l, manifestHas m s.id = false) →
      insertEntries entry l m = m ++ l.map (fun s => (s.id, entry s.id)) := by
  intro l
  induction l with
  | nil => intro m _ _; simp [insertEntries]
  | cons s rest ih =>
    intro m hnd habs
    have hnd2 : s.id ∉ rest.map Step.id ∧ (rest.map Step.id).Nodup := by
      rw [List.map_cons] at hnd
      exact List.nodup_cons.mp hnd
    rw [insertEntries, dictInsert_not_has m s.id _ (habs s (List.mem_cons_self _ _)),
      ih (m ++ [(s.id, entry s.id)]) hnd2.2 ?_]
    · simp
    · intro s2 hs2
      have h1 : manifestHas m s2.id = false :=
        habs s2 (List.mem_cons_of_mem _ hs2)
      have h2 : s.id ≠ s2.id := by
        intro hc
        exact hnd2.1 (hc ▸ List.mem_map_of_mem Step.id hs2)
      rw [manifestHas, List.any_append, Bool.or_eq_false_iff]
      refine ⟨h1, ?_⟩
      simp [h2]

lemma execSteps_cons_ok (stepOk : String → Bool) (entry : String → Entry)
    (s : Step) (rest : List Step) (m : Manifest) (hs : stepOk s.id = true) :
    execSteps stepOk entry (s :: rest) m =
      ⟨(execSteps stepOk entry rest (dictInsert s.id (entry s.id) m)).ok,
       (execSteps stepOk entry rest (dictInsert s.id (entry s.id) m)).manifest,
       s.id :: (execSteps stepOk entry rest (dictInsert s.id (entry s.id) m)).executed,
       dictInsert s.id (entry s.id) m ::
         (execSteps stepOk entry rest (dictInsert s.id (entry s.id) m)).saves⟩ := by
  rw [execSteps, if_pos hs]

lemma execSteps_cons_fail (stepOk : String → Bool) (entry : String → Entry)
    (s : Step) (rest : List Step) (m : Manifest) (hs : stepOk s.id = false) :
    execSteps stepOk entry (s :: rest) m = ⟨false, m, [s.id], []⟩ := by
  rw [execSteps, if_neg (by simp [hs])]

lemma execSteps_ok (stepOk : String → Bool) (entry : String → Entry) :
    ∀ (plan : List Step) (m : Manifest), (∀ s ∈ plan, stepOk s.id = true) →
      execSteps stepOk entry plan m =
        ⟨true, insertEntries entry plan m, plan.map Step.id, savesFor entry plan m⟩ := by
  intro plan
  induction plan with
  | nil => intro m _; rfl
  | cons s rest ih =>
    intro m hok
    rw [execSteps_cons_ok stepOk entry s rest m (hok s (List.mem_cons_self _ _)),
      ih _ (fun s2 hs2 => hok s2 (List.mem_cons_of_mem _ hs2))]
    rfl

lemma execSteps_ok_iff (stepOk : String → Bool) (entry : String → Entry) :
    ∀ (plan : List Step) (m : Manifest),
      (execSteps stepOk entry plan m).ok = true ↔ ∀ s ∈ plan, stepOk s.id = true := by
  intro plan
  induction plan with
  | nil => simp [execSteps]
  | cons s rest ih =>
    intro m
    by_cases hs : stepOk s.id = true
    · rw [execSteps_cons_ok stepOk entry s rest m hs]
      show (execSteps stepOk entry rest _).ok = true ↔ _
      simp only [List.mem_cons]
      constructor
      · intro h s2 hs2
        rcases hs2 with rfl | hs2
        · exact hs
        · exact (ih _).mp h s2 hs2
      · intro h
        exact (ih _).mpr (fun s2 hs2 => h s2 (Or.inr hs2))
    · rw [execSteps_cons_fail stepOk entry s rest m (Bool.eq_false_iff.mpr hs)]
      simp only [List.mem_cons]
      constructor
      · intro h
        exact absurd h (by simp)
      · intro h
        exact absurd (h s (Or.inl rfl)) hs

lemma execSteps_fail (stepOk : String → Bool) (entry : String → Entry) :
    ∀ (plan : List Step) (m : Manifest) (k : Nat) (hk : k < plan.length),
      (∀ s ∈ plan.take k, stepOk s.id = true) →
      stepOk ((plan.get ⟨k, hk⟩).id) = false →
      execSteps stepOk entry plan m =
        ⟨false, insertEntries entry (plan.take k) m,
          (plan.take (k + 1)).map Step.id, savesFor entry (plan.take k) m⟩ := by
  intro plan
  induction plan with
  | nil =>
    intro m k hk
    exact absurd hk (by simp)
  | cons s rest ih =>
    intro m k hk hok hfail
    cases k with
    | zero =>
      rw [execSteps_cons_fail stepOk entry s rest m (by simpa using hfail)]
      rfl
    | succ k2 =>
      have hs : stepOk s.id = true := hok s (by simp)
      rw [execSteps_cons_ok stepOk entry s rest m hs,
        ih _ k2 (Nat.lt_of_succ_lt_succ hk)
          (fun s2 hs2 => hok s2 (by simpa using Or.inr hs2)) hfail]
      rfl

lemma execSteps_saves_get (stepOk : String → Bool) (entry : String → Entry) :
    ∀ (plan : List Step) (m : Manifest) (i : Nat), i < plan.length →
      (∀ s ∈ plan.take (i + 1), stepOk s.id = true) →
      (execSteps stepOk entry plan m).saves.get? i =
        some (insertEntries entry (plan.take (i + 1)) m) := by
  intro plan
  induction plan with
  | nil =>
    intro m i hi
    exact absurd hi (by simp)
  | cons s rest ih =>
    intro m i hi hok
    have hs : stepOk s.id = true := hok s (by simp)
    rw [execSteps_cons_ok stepOk entry s rest m hs]
    cases i with
    | zero => rfl
    | succ i2 =>
      show (execSteps stepOk entry rest _).saves.get? i2 = _
      rw [ih _ i2 (Nat.lt_of_succ_lt_succ hi)
        (fun s2 hs2 => hok s2 (by simpa using Or.inr hs2))]
      rfl

lemma savesFor_getLast (entry : String → Entry) :
    ∀ (plan : List Step) (m : Manifest), plan ≠ [] →
      (savesFor entry plan m).getLast? = some (insertEntries entry plan m) := by
  intro plan
  induction plan with
  | nil => intro m h; exact absurd rfl h
  | cons s rest ih =>
    intro m _
    cases rest with
    | nil => simp [savesFor, insertEntries]
    | cons r1 rs =>
      have h2 := ih (dictInsert s.id (entry s.id) m) (by simp)
      rw [savesFor] at h2
      rw [savesFor, savesFor, List.getLast?_cons_cons, h2]
      rfl

lemma planWalk_covering (manifest : Manifest) (force : Finset String) :
    ∀ (steps : List Step) (rebuilt : Finset String) (s : Step), s ∈ steps →
      manifestHas manifest s.id = true ∨ s ∈ planWalk manifest force steps rebuilt := by
  intro steps
  induction steps with
  | nil =>
    intro _ s hs
    exact absurd hs (List.not_mem_nil s)
  | cons a rest ih =>
    intro rebuilt s hs
    rw [planWalk]
    by_cases hr : shouldRunStep manifest force rebuilt a = true
    · rw [if_pos hr]
      rcases List.mem_cons.mp hs with rfl | hs2
      · exact Or.inr (List.mem_cons_self _ _)
      · rcases ih _ s hs2 with h | h
        · exact Or.inl h
        · exact Or.inr (List.mem_cons_of_mem _ h)
    · rw [if_neg hr]
      rcases List.mem_cons.mp hs with rfl | hs2
      · left
        have hfalse : shouldRunStep manifest force rebuilt s = false :=
          Bool.eq_false_iff.mpr hr
        rw [shouldRunStep, Bool.or_eq_false_iff] at hfalse
        have h3 := hfalse.1
        rw [Bool.or_eq_false_iff] at h3
        simpa using h3.1
      · exact ih _ s hs2

lemma planWalk_all_has (manifest : Manifest) :
    ∀ (steps : List Step), (∀ s ∈ steps, manifestHas manifest s.id = true) →
      planWalk manifest ∅ steps ∅ = [] := by
  intro steps
  induction steps with
  | nil => intro _; rfl
  | cons a rest ih =>
    intro h
    rw [planWalk, if_neg ?_]
    · exact ih (fun s hs => h s (List.mem_cons_of_mem _ hs))
    · rw [shouldRunStep]
      simp [h a (List.mem_cons_self _ _)]

/-- The executor-phase outcome of `run_build` (plan nonempty, not a dry
run), written out for case analysis. -/
def execOutcome (env : Env) (st : BuildState) (plan : List Step) (m : Manifest) :
    RunOutcome :=
  if (execSteps env.stepOk env.entry plan m).ok then
    ⟨if env.summaryOk then .success else .exn,
     lastSave (execSteps env.stepOk env.entry plan m).saves st.persisted,
     cleanup_stale_artifacts st.artifacts,
     (execSteps env.stepOk env.entry plan m).executed, true,
     (execSteps env.stepOk env.entry plan m).saves⟩
  else
    ⟨.failure, lastSave (execSteps env.stepOk env.entry plan m).saves st.persisted,
     cleanup_stale_artifacts st.artifacts,
     (execSteps env.stepOk env.entry plan m).executed, false,
     (execSteps env.stepOk env.entry plan m).saves⟩

lemma run_build_empty_plan (steps : List Step) (env : Env) (st : BuildState)
    (requested : List String) (full_rebuild dry_run : Bool)
    (h : determine_steps_to_run steps
      (if full_rebuild then [] else load_manifest st.persisted) requested full_rebuild
      = []) :
    run_build steps env st requested full_rebuild dry_run =
      ⟨if env.summaryOk then .success else .exn, st.persisted,
        cleanup_stale_artifacts st.artifacts, [], true, []⟩ := by
  simp [run_build, h]

lemma run_build_exec_eq (steps : List Step) (env : Env) (st : BuildState)
    (requested : List String) (full_rebuild : Bool) (plan : List Step)
    (hplan : determine_steps_to_run steps
      (if full_rebuild then [] else load_manifest st.persisted) requested full_rebuild
      = plan)
    (hne : plan ≠ []) :
    run_build steps env st requested full_rebuild false =
      execOutcome env st plan
        (if full_rebuild then [] else load_manifest st.persisted) := by
  cases plan with
  | nil => exact absurd rfl hne
  | cons p0 prest => simp [run_build, execOutcome, hplan]

lemma execOutcome_saves (env : Env) (st : BuildState) (plan : List Step)
    (m : Manifest) :
    (execOutcome env st plan m).saves = (execSteps env.stepOk env.entry plan m).saves := by
  rw [execOutcome]
  split <;> rfl

/-! ### Concrete fixtures (the three-step pipeline of the spec's §8) -/

def stepA : Step := ⟨"a", "t1", []⟩
def stepB : Step := ⟨"b", "t2", ["t1"]⟩
def stepC : Step := ⟨"c", "t3", ["t2"]⟩
def stepsABC : List Step := [stepA, stepB, stepC]
def entry0 : Entry := ⟨0, 0⟩
def mABC : Manifest := [("a", entry0), ("b", entry0), ("c", entry0)]
def envAllOk : Env := ⟨fun _ => true, fun _ => entry0, true⟩
def envFailB : Env := ⟨fun id => !(id == "b"), fun _ => entry0, true⟩
def envNoSummary : Env := ⟨fun _ => true, fun _ => entry0, false⟩
def st0 : BuildState := ⟨[], none⟩
def stDone : BuildState := ⟨[], some mABC⟩
def argsBogus : Args := ⟨["bogus"], false, false, false⟩
def mW : Manifest := [("tickers_v1", entry0)]

lemma forceTargets_nil (steps : List Step) : forceTargets steps [] = ∅ := rfl

lemma determine_no_request (steps : List Step) (m : Manifest)
    (h : ∀ s ∈ steps, manifestHas m s.id = true) :
    determine_steps_to_run steps m [] false = [] := by
  rw [determine_steps_to_run, if_neg (by simp), forceTargets_nil]
  exact planWalk_all_has m steps h

lemma determine_covers (steps : List Step) (m : Manifest) (requested : List String)
    (full_rebuild : Bool) :
    ∀ s ∈ steps, manifestHas m s.id = true ∨
      s ∈ determine_steps_to_run steps m requested full_rebuild := by
  intro s hs
  rw [determine_steps_to_run]
  by_cases hf : full_rebuild = true
  · rw [if_pos hf]
    exact Or.inr hs
  · rw [if_neg hf]
    exact planWalk_covering m _ steps ∅ s hs

lemma run_build_success_persisted (steps : List Step) (env : Env) (st : BuildState)
    (requested : List String) (full_rebuild : Bool) (plan : List Step)
    (hplan : determine_steps_to_run steps
      (if full_rebuild then [] else load_manifest st.persisted) requested full_rebuild
      = plan)
    (hne : plan ≠ [])
    (hall : ∀ s ∈ plan, env.stepOk s.id = true) :
    (run_build steps env st requested full_rebuild false).persisted =
      some (insertEntries env.entry plan
        (if full_rebuild then [] else load_manifest st.persisted)) := by
  rw [run_build_exec_eq steps env st requested full_rebuild plan hplan hne]
  have hok : (execSteps env.stepOk env.entry plan
      (if full_rebuild then [] else load_manifest st.persisted)).ok = true :=
    (execSteps_ok_iff _ _ _ _).mpr hall
  rw [execOutcome, if_pos hok,
    execSteps_ok env.stepOk env.entry plan _ hall]
  show lastSave (savesFor env.entry plan _) st.persisted = _
  rw [lastSave, savesFor_getLast env.entry plan _ hne]

lemma run_build_success_ok (steps : List Step) (env : Env) (st : BuildState)
    (requested : List String) (full_rebuild : Bool) (plan : List Step)
    (hplan : determine_steps_to_run steps
      (if full_rebuild then [] else load_manifest st.persisted) requested full_rebuild
      = plan)
    (hne : plan ≠ [])
    (hres : (run_build steps env st requested full_rebuild false).result = .success) :
    ∀ s ∈ plan, env.stepOk s.id = true := by
  rw [run_build_exec_eq steps env st requested full_rebuild plan hplan hne,
    execOutcome] at hres
  by_cases hok : (execSteps env.stepOk env.entry plan
      (if full_rebuild then [] else load_manifest st.persisted)).ok = true
  · exact (execSteps_ok_iff _ _ _ _).mp hok
  · rw [if_neg hok] at hres
    exact absurd hres (by simp)

/-- C5: a manifest holding an entry for every registered step id yields an
empty plan (no requests, no full rebuild); consequently replanning with no
requests after any successful non-dry `run_build` — which records an entry
for every step it executed — yields an empty plan. -/
theorem planner_idempotent (steps : List Step) (manifest : Manifest) (env : Env)
    (st : BuildState) (requested : List String) (full_rebuild : Bool) :
    ((∀ s ∈ steps, manifestHas manifest s.id = true) →
      determine_steps_to_run steps manifest [] false = []) ∧
    ((run_build steps env st requested full_rebuild false).result = .success →
      determine_steps_to_run steps
        (load_manifest (run_build steps env st requested full_rebuild false).persisted)
        [] false = []) := by
  constructor
  · exact determine_no_request steps manifest
  · intro hres
    by_cases hplan : determine_steps_to_run steps
        (if full_rebuild then [] else load_manifest st.persisted) requested full_rebuild
        = []
    · rw [run_build_empty_plan steps env st requested full_rebuild false hplan]
      show determine_steps_to_run steps (load_manifest st.persisted) [] false = []
      by_cases hf : full_rebuild = true
      · rw [hf] at hplan
        rw [determine_steps_to_run, if_pos rfl] at hplan
        subst hplan
        exact determine_no_request [] _
          (by intro s hs; exact absurd hs (List.not_mem_nil s))
      · refine determine_no_request steps _ ?_
        intro s hs
        rcases determine_covers steps
            (if full_rebuild then [] else load_manifest st.persisted) requested
            full_rebuild s hs with h | h
        · rw [if_neg hf] at h
          exact h
        · rw [hplan] at h
          exact absurd h (List.not_mem_nil s)
    · have hall := run_build_success_ok steps env st requested full_rebuild _ rfl hplan hres
      rw [run_build_success_persisted steps env st requested full_rebuild _ rfl hplan hall]
      show determine_steps_to_run steps
        (insertEntries env.entry _ (if full_rebuild then [] else load_manifest st.persisted))
        [] false = []
      refine determine_no_request steps _ ?_
      intro s hs
      rw [manifestHas_insertEntries]
      rcases determine_covers steps
          (if full_rebuild then [] else load_manifest st.persisted) requested
          full_rebuild s hs with h | h
      · exact Or.inl h
      · exact Or.inr ⟨s, h, rfl⟩

/-- Witness for C5 at a concrete registry, complete manifest and successful
run. -/
theorem planner_idempotent_witness :
    determine_steps_to_run stepsABC mABC [] false = [] ∧
    determine_steps_to_run stepsABC
      (load_manifest (run_build stepsABC envAllOk st0 [] false false).persisted)
      [] false = [] := by
  have h := planner_idempotent stepsABC mABC envAllOk st0 [] false
  exact ⟨h.1 (by decide), h.2 (by decide)⟩

lemma run_build_fail_outcome (steps : List Step) (env : Env) (st : BuildState)
    (requested : List String) (full_rebuild : Bool) (plan : List Step) (k : Nat)
    (hplan : determine_steps_to_run steps
      (if full_rebuild then [] else load_manifest st.persisted) requested full_rebuild
      = plan)
    (hk : k < plan.length)
    (hok : ∀ s ∈ plan.take k, env.stepOk s.id = true)
    (hfail : env.stepOk ((plan.get ⟨k, hk⟩).id) = false) :
    run_build steps env st requested full_rebuild false =
      ⟨.failure,
        lastSave (savesFor env.entry (plan.take k)
          (if full_rebuild then [] else load_manifest st.persisted)) st.persisted,
        cleanup_stale_artifacts st.artifacts,
        (plan.take (k + 1)).map Step.id, false,
        savesFor env.entry (plan.take k)
          (if full_rebuild then [] else load_manifest st.persisted)⟩ := by
  have hne : plan ≠ [] := by
    intro hc
    rw [hc] at hk
    exact absurd hk (by simp)
  rw [run_build_exec_eq steps env st requested full_rebuild plan hplan hne, execOutcome,
    execSteps_fail env.stepOk env.entry plan _ k hk hok hfail]
  rfl

/-- C2: when the k-th planned step's action raises, `run_build` returns
failure, exactly the first k+1 actions were invoked, the persisted manifest
holds an entry for each of the first k planned steps (saved step by step),
and no planned step from the k-th on gained a manifest entry it did not
already have before the run. -/
theorem run_build_fail_fast (steps : List Step) (env : Env) (st : BuildState)
    (requested : List String) (full_rebuild : Bool) (plan : List Step) (k : Nat)
    (hplan : determine_steps_to_run steps
      (if full_rebuild then [] else load_manifest st.persisted) requested full_rebuild
      = plan)
    (hk : k < plan.length)
    (hok : ∀ s ∈ plan.take k, env.stepOk s.id = true)
    (hfail : env.stepOk ((plan.get ⟨k, hk⟩).id) = false)
    (hnodup : (plan.map Step.id).Nodup) :
    (run_build steps env st requested full_rebuild false).result = .failure ∧
    (run_build steps env st requested full_rebuild false).executed =
      (plan.take (k + 1)).map Step.id ∧
    (∀ s ∈ plan.take k,
      manifestHas
        (load_manifest (run_build steps env st requested full_rebuild false).persisted)
        s.id = true) ∧
    (∀ s ∈ plan.drop k,
      manifestHas
        (load_manifest (run_build steps env st requested full_rebuild false).persisted)
        s.id = true →
      manifestHas (load_manifest st.persisted) s.id = true) := by
  rw [run_build_fail_outcome steps env st requested full_rebuild plan k hplan hk hok hfail]
  refine ⟨rfl, rfl, ?_, ?_⟩
  · cases k with
    | zero =>
      intro s hs
      exact absurd hs (by simp)
    | succ k2 =>
      have hne : plan.take (k2 + 1) ≠ [] := by
        intro hc
        rcases List.take_eq_nil_iff.mp hc with hc2 | hc2
        · simp at hc2
        · rw [hc2] at hk
          exact absurd hk (by simp)
      intro s hs
      show manifestHas (load_manifest (lastSave (savesFor env.entry _ _) st.persisted)) _ = true
      rw [lastSave, savesFor_getLast env.entry _ _ hne]
      show manifestHas (insertEntries env.entry (plan.take (k2 + 1)) _) s.id = true
      rw [manifestHas_insertEntries]
      exact Or.inr ⟨s, hs, rfl⟩
  · cases k with
    | zero =>
      intro s _ h
      exact h
    | succ k2 =>
      have hne : plan.take (k2 + 1) ≠ [] := by
        intro hc
        rcases List.take_eq_nil_iff.mp hc with hc2 | hc2
        · simp at hc2
        · rw [hc2] at hk
          exact absurd hk (by simp)
      intro s hs h
      rw [show load_manifest (lastSave (savesFor env.entry (plan.take (k2 + 1))
          (if full_rebuild then [] else load_manifest st.persisted)) st.persisted) =
          insertEntries env.entry (plan.take (k2 + 1))
            (if full_rebuild then [] else load_manifest st.persisted) from by
        rw [lastSave, savesFor_getLast env.entry _ _ hne]
        rfl] at h
      rw [manifestHas_insertEntries] at h
      rcases h with h | ⟨s2, hs2, hid⟩
      · by_cases hf : full_rebuild = true
        · rw [if_pos hf] at h
          exact absurd h (by simp [manifestHas])
        · rw [if_neg hf] at h
          exact h
      · exfalso
        have h1 : s.id ∈ (plan.take (k2 + 1)).map Step.id :=
          hid ▸ List.mem_map_of_mem Step.id hs2
        have h2 : s.id ∈ (plan.drop (k2 + 1)).map Step.id :=
          List.mem_map_of_mem Step.id hs
        rw [← List.take_append_drop (k2 + 1) plan, List.map_append] at hnodup
        exact absurd h2 ((List.nodup_append.mp hnodup).2.2 h1)

/-- Witness for C2: three steps, the second one failing. -/
theorem run_build_fail_fast_witness :
    (run_build stepsABC envFailB st0 [] false false).result = .failure ∧
    (run_build stepsABC envFailB st0 [] false false).executed = ["a", "b"] ∧
    manifestHas
      (load_manifest (run_build stepsABC envFailB st0 [] false false).persisted) "a"
      = true ∧
    manifestHas
      (load_manifest (run_build stepsABC envFailB st0 [] false false).persisted) "b"
      = false := by
  have h := run_build_fail_fast stepsABC envFailB st0 [] false stepsABC 1
    (by decide) (by decide) (by decide) (by decide) (by decide)
  refine ⟨h.1, h.2.1.trans (by decide), ?_, by decide⟩
  exact h.2.2.1 stepA (by decide)

/-- C9: with `full_rebuild` the executor starts from an empty in-memory
manifest, so the manifest saved right after the i-th planned step (the plan
being the whole registry) contains exactly the entries of the first i+1
steps of this run — every entry recorded by previous runs is gone from the
first save on, including entries for steps not yet (or never) re-executed. -/
theorem run_build_full_rebuild_saves (steps : List Step) (env : Env) (st : BuildState)
    (requested : List String) (i : Nat)
    (hi : i < steps.length)
    (hok : ∀ s ∈ steps.take (i + 1), env.stepOk s.id = true)
    (hnodup : (steps.map Step.id).Nodup) :
    (run_build steps env st requested true false).saves.get? i =
      some ((steps.take (i + 1)).map (fun s => (s.id, env.entry s.id))) := by
  have hne : steps ≠ [] := by
    intro hc
    rw [hc] at hi
    exact absurd hi (by simp)
  have hplan : determine_steps_to_run steps
      (if true then [] else load_manifest st.persisted) requested true = steps := by
    rw [determine_steps_to_run, if_pos rfl]
  rw [run_build_exec_eq steps env st requested true steps hplan hne, execOutcome_saves,
    execSteps_saves_get env.stepOk env.entry steps _ i hi hok]
  have hnd2 : ((steps.take (i + 1)).map Step.id).Nodup := by
    rw [List.map_take]
    exact List.Nodup.sublist (List.take_sublist _ _) hnodup
  rw [insertEntries_nodup env.entry (steps.take (i + 1)) _ hnd2 ?_]
  · show some ((if true then ([] : Manifest) else load_manifest st.persisted) ++ _) = _
    rfl
  · intro s _
    rfl

def stOld : BuildState := ⟨[], some [("old_step", entry0)]⟩

/-- Witness for C9: a full rebuild from a state whose persisted manifest
holds an entry for a retired step id; the second save holds exactly the
first two steps of this run. -/
theorem run_build_full_rebuild_saves_witness :
    (run_build stepsABC envAllOk stOld [] true false).saves.get? 1 =
      some [("a", entry0), ("b", entry0)] := by
  have h := run_build_full_rebuild_saves stepsABC envAllOk stOld [] 1
    (by decide) (by decide) (by decide)
  exact h.trans (by decide)

/-- C8 (amended): after an empty plan, or after every planned step succeeds
in a non-dry run, `run_build` invokes the summary reporter, and that call
cannot alter the persisted manifest or the executed steps; but the code
does not catch errors from the reporter, so `run_build` ends in success
exactly when the reporter does not raise (an exception from it propagates
instead of being swallowed). -/
theorem run_build_summary_spec (steps : List Step) (env : Env) (st : BuildState)
    (requested : List String) (full_rebuild : Bool)
    (hsucc : ∀ s ∈ determine_steps_to_run steps
        (if full_rebuild then [] else load_manifest st.persisted) requested full_rebuild,
      env.stepOk s.id = true) :
    (run_build steps env st requested full_rebuild false).summaryRan = true ∧
    (run_build steps env st requested full_rebuild false).result =
      (if env.summaryOk then .success else .exn) ∧
    ∀ (b : Bool),
      (run_build steps ⟨env.stepOk, env.entry, b⟩ st requested full_rebuild false).persisted
        = (run_build steps env st requested full_rebuild false).persisted ∧
      (run_build steps ⟨env.stepOk, env.entry, b⟩ st requested full_rebuild false).executed
        = (run_build steps env st requested full_rebuild false).executed := by
  by_cases hplan : determine_steps_to_run steps
      (if full_rebuild then [] else load_manifest st.persisted) requested full_rebuild
      = []
  · rw [run_build_empty_plan steps env st requested full_rebuild false hplan]
    refine ⟨rfl, rfl, ?_⟩
    intro b
    rw [run_build_empty_plan steps ⟨env.stepOk, env.entry, b⟩ st requested full_rebuild
      false hplan]
    exact ⟨rfl, rfl⟩
  · have hok : (execSteps env.stepOk env.entry
        (determine_steps_to_run steps
          (if full_rebuild then [] else load_manifest st.persisted) requested full_rebuild)
        (if full_rebuild then [] else load_manifest st.persisted)).ok = true :=
      (execSteps_ok_iff _ _ _ _).mpr hsucc
    rw [run_build_exec_eq steps env st requested full_rebuild _ rfl hplan,
      execOutcome, if_pos hok]
    refine ⟨rfl, rfl, ?_⟩
    intro b
    rw [run_build_exec_eq steps ⟨env.stepOk, env.entry, b⟩ st requested full_rebuild
      _ rfl hplan, execOutcome, if_pos hok]
    exact ⟨rfl, rfl⟩

/-- Counterexample to C8 as stated: with an empty plan and a summary
reporter that raises, `run_build` does not return success — the exception
escapes (the reporter was indeed invoked and the manifest untouched). -/
theorem run_build_summary_raises :
    (run_build stepsABC envNoSummary stDone [] false false).summaryRan = true ∧
    (run_build stepsABC envNoSummary stDone [] false false).persisted = stDone.persisted ∧
    ¬ (run_build stepsABC envNoSummary stDone [] false false).result = .success := by
  decide

/-- Witness for C8's amended statement at a concrete successful run. -/
theorem run_build_summary_spec_witness :
    (run_build stepsABC envAllOk st0 [] false false).summaryRan = true ∧
    (run_build stepsABC envAllOk st0 [] false false).result =
      (if envAllOk.summaryOk then .success else .exn) := by
  have h := run_build_summary_spec stepsABC envAllOk st0 [] false (by decide)
  exact ⟨h.1, h.2.1⟩

/-- C10: `run_build` performs stale-artifact cleanup before consulting the
dry-run flag: a dry-run invocation executes no step and saves nothing, yet
the output directory is mutated — exactly the top-level entries whose name
ends with `.tmp`, `_old` or `_building`, or starts with `_`, are removed. -/
theorem run_build_dry_run_cleanup (steps : List Step) (env : Env) (st : BuildState)
    (requested : List String) (full_rebuild : Bool) :
    (run_build steps env st requested full_rebuild true).artifacts =
      cleanup_stale_artifacts st.artifacts ∧
    (run_build steps env st requested full_rebuild true).artifacts =
      st.artifacts.filter (fun n => !isStaleArtifact n) ∧
    (run_build steps env st requested full_rebuild true).executed = [] ∧
    (run_build steps env st requested full_rebuild true).saves = [] ∧
    (run_build steps env st requested full_rebuild true).persisted = st.persisted := by
  refine ⟨?_, ?_, ?_, ?_, ?_⟩ <;>
    simp [run_build, cleanup_stale_artifacts, apply_ite RunOutcome.artifacts,
      apply_ite RunOutcome.executed, apply_ite RunOutcome.saves,
      apply_ite RunOutcome.persisted]

lemma contains_iff_mem (l : List String) (t : String) :
    l.contains t = true ↔ t ∈ l := by
  simp [List.contains, List.elem_iff]

/-- C7 (amended): the CLI exits with status zero iff `--list` was given, or
every requested target is known to the registry and `run_build` returned
success.  In particular a request naming an unknown target exits via
`sys.exit(message)`, which is status 1 — nonzero even though no step action
failed — and an exception escaping `run_build` (a raising summary reporter)
also terminates the process with a nonzero status. -/
theorem main_exit_spec (steps : List Step) (env : Env) (st : BuildState) (args : Args) :
    mainExitCode steps env st args = 0 ↔
      (args.list_steps = true ∨
        ((∀ t ∈ args.targets, t ∈ knownTargets steps) ∧
          (run_build steps env st args.targets args.full args.dry_run).result =
            .success)) := by
  rw [mainExitCode]
  by_cases hl : args.list_steps = true
  · rw [if_pos hl]
    simp [hl]
  · rw [if_neg hl]
    by_cases ht : args.targets.any (fun t => !(knownTargets steps).contains t) = true
    · rw [if_pos ht]
      rw [List.any_eq_true] at ht
      rcases ht with ⟨t, htmem, htbad⟩
      constructor
      · intro h
        exact absurd h (by simp)
      · rintro (h | ⟨hknown, _⟩)
        · exact absurd h hl
        · exfalso
          have := hknown t htmem
          rw [← contains_iff_mem] at this
          rw [this] at htbad
          exact absurd htbad (by simp)
    · rw [if_neg ht]
      have hknown : ∀ t ∈ args.targets, t ∈ knownTargets steps := by
        intro t htmem
        rw [← contains_iff_mem]
        by_contra hc
        refine ht (List.any_eq_true.mpr ⟨t, htmem, ?_⟩)
        simp only [Bool.not_eq_true'] at hc ⊢
        exact Bool.eq_false_iff.mpr hc
      cases hres : (run_build steps env st args.targets args.full args.dry_run).result
      · constructor
        · intro _
          exact Or.inr ⟨hknown, rfl⟩
        · intro _
          rfl
      · simp [hl]
      · simp [hl]

/-- Counterexample to C7 as stated: requesting an unknown target exits with
status 1 although no step's action fails (indeed no step runs at all). -/
theorem main_exit_unknown_target :
    mainExitCode stepsABC envAllOk st0 argsBogus = 1 ∧
    (∀ s ∈ stepsABC, envAllOk.stepOk s.id = true) := by
  decide

/-- C6 (amended): the `step` decorator performs no duplicate check —
registration always appends, so registering a step whose id is already
present yields a registry with two steps sharing that id instead of
failing with a configuration error.  Registration never touches the
manifest (it does not appear in the registry state at all). -/
theorem registerStep_always_appends (r : Registry) (s : Step) :
    (registerStep r s).steps = r.steps ++ [s] := rfl

/-- Counterexample to C6 as stated: registering the same step id twice
produces a registry whose step list carries the id twice — no error. -/
theorem register_duplicate_id_appends :
    ((registerStep (registerStep emptyRegistry ⟨"tickers_v1", "tickers", []⟩)
        ⟨"tickers_v1", "tickers2", []⟩).steps.map Step.id) =
      ["tickers_v1", "tickers_v1"] := by
  decide

lemma docLookup_write_self (ds : DocStore) (p : String) (m : Manifest) :
    docLookup (docWrite ds p m) p = some m := by
  induction ds with
  | nil => simp [docWrite, docLookup]
  | cons q rest ih =>
    rw [docWrite]
    by_cases hq : (q.1 == p) = true
    · rw [if_pos hq, docLookup, if_pos (by simp)]
    · rw [if_neg hq, docLookup, if_neg hq]
      exact ih

lemma docLookup_write_ne (ds : DocStore) (p q : String) (m : Manifest)
    (h : p ≠ q) : docLookup (docWrite ds p m) q = docLookup ds q := by
  induction ds with
  | nil => simp [docWrite, docLookup, h]
  | cons r rest ih =>
    rw [docWrite]
    by_cases hr : (r.1 == p) = true
    · have hr2 : r.1 = p := by simpa using hr
      rw [if_pos hr]
      simp [docLookup, h, hr2]
    · rw [if_neg hr]
      simp [docLookup, ih]

/-- C4: `load_manifest` yields the empty mapping when no manifest document
exists; `save_manifest` serializes the whole document to a temporary path
(in the same `db/` directory) and then renames it over the final path.
Every proper prefix of the save trace — any interruption before the rename
— leaves the document at the manifest path unchanged, and only the final
rename installs the new document, which the full trace does. -/
theorem manifest_store_atomic (ds : DocStore) (m : Manifest) :
    (docLookup ds MANIFEST_FILE = none → load_manifest_doc ds = []) ∧
    (∀ k, k < (save_manifest_ops m).length →
      docLookup (applyOps ds ((save_manifest_ops m).take k)) MANIFEST_FILE =
        docLookup ds MANIFEST_FILE) ∧
    docLookup (applyOps ds (save_manifest_ops m)) MANIFEST_FILE = some m ∧
    MANIFEST_TMP ≠ MANIFEST_FILE := by
  have hne : MANIFEST_TMP ≠ MANIFEST_FILE := by decide
  refine ⟨?_, ?_, ?_, hne⟩
  · intro h
    rw [load_manifest_doc, h]
  · intro k hk
    have hk3 : k < 3 := by
      simpa [save_manifest_ops] using hk
    interval_cases k
    · rfl
    · rfl
    · show docLookup (docWrite ds MANIFEST_TMP m) MANIFEST_FILE = _
      exact docLookup_write_ne ds MANIFEST_TMP MANIFEST_FILE m hne
  · show docLookup (applyOp (applyOp (applyOp ds .mkdirOutput)
      (.writeFile MANIFEST_TMP m)) (.rename MANIFEST_TMP MANIFEST_FILE))
      MANIFEST_FILE = some m
    rw [applyOp, applyOp, applyOp, docLookup_write_self]
    exact docLookup_write_self _ MANIFEST_FILE m

/-- Witness for C4 at a concrete store and document. -/
theorem manifest_store_atomic_witness :
    load_manifest_doc [] = [] ∧
    docLookup (applyOps [] ((save_manifest_ops mW).take 2)) MANIFEST_FILE =
      docLookup ([] : DocStore) MANIFEST_FILE ∧
    docLookup (applyOps [] (save_manifest_ops mW)) MANIFEST_FILE = some mW := by
  have h := manifest_store_atomic [] mW
  exact ⟨h.1 rfl, h.2.1 2 (by decide), h.2.2.1⟩

end MarketData
